import Mathlib

/-!
Verification of the `source-toggl` connector fragment and of the incremental
extraction and checkpointing engine its specification describes.

The only source file of the fragment is
`airbyte-integrations/connectors/source-toggl/source_toggl/run.py`:

    def run():
        source = SourceToggl()
        launch(source, sys.argv[1:])

The spec's Sync Engine, Stream, Paginator and State Store are not present in
the fragment; they are modelled here from the spec's own words (each such
definition carries a doc comment starting `Modelled from the spec:`).
-/

namespace SourceToggl

/-- The connector classes visible to `run.py`.  `run()` constructs exactly
`SourceToggl()`, the only connector of this package. -/
inductive Connector
  | sourceToggl
deriving DecidableEq, Repr

/-- Observable effects of the entrypoint: constructing a connector object and
calling the framework `launch` with a connector and an argument list.  The
embedding records the effect trace of `run()`; any extraction, pagination,
authentication or state-management work would appear as further events, and
none exists in the source. -/
inductive RunEvent
  | construct (s : Connector)
  | launchCall (s : Connector) (args : List String)
deriving DecidableEq, Repr

/-- Embedding of `run()` from `run.py`: it builds one `SourceToggl()` with no
constructor arguments and calls `launch(source, sys.argv[1:])`; `argv.drop 1`
is `sys.argv[1:]`. -/
def run (argv : List String) : List RunEvent :=
  [RunEvent.construct Connector.sourceToggl,
   RunEvent.launchCall Connector.sourceToggl (argv.drop 1)]

/-- Is this event a connector construction? -/
def RunEvent.isConstruct : RunEvent → Bool
  | .construct _ => true
  | _ => false

/-- Is this event a `launch` call? -/
def RunEvent.isLaunch : RunEvent → Bool
  | .launchCall _ _ => true
  | _ => false

/-- The argument list handed to `launch`, if the trace contains a launch. -/
def launchArgs (evs : List RunEvent) : Option (List String) :=
  (evs.filterMap fun e =>
    match e with
    | .launchCall _ args => some args
    | _ => none).head?

end SourceToggl

namespace ConnectorCore

/-- Opaque continuation marker returned by the upstream API; its absence
signals that the collection is exhausted. -/
abbrev PageToken := Nat

/-- A raw record from the upstream API: its cursor-field value (an opaque
comparable scalar, modelled as a natural number) and an opaque payload. -/
structure RawRecord where
  cv : Nat
  payload : Nat
deriving DecidableEq, Repr

/-- One raw page: an ordered sequence of raw records plus the next
`PageToken`, or none at end of collection. -/
structure Page where
  records : List RawRecord
  next : Option PageToken
deriving DecidableEq, Repr

/-- A stable upstream collection: the page stored under each token. -/
abbrev Upstream := List (PageToken × Page)

/-- Fetching the page for a token from the (stable) upstream. -/
def fetch (u : Upstream) (t : PageToken) : Option Page :=
  u.lookup t

/-- Modelled from the spec: the Paginator (§4.2), missing from the fragment.
Given a stable upstream and a starting token it produces the finite sequence
of raw pages, following each page's next token; a `PageToken` that repeats is
detected (via the `seen` list of already-visited tokens) and treated as end of
collection with a reported warning (the `Bool` component) rather than looping
forever. -/
def paginate (u : Upstream) (seen : List PageToken) (t : PageToken) :
    List Page × Bool :=
  if t ∈ seen then ([], true)
  else
    match hf : fetch u t with
    | none => ([], false)
    | some p =>
      match p.next with
      | none => ([p], false)
      | some t2 =>
        let r := paginate u (t :: seen) t2
        (p :: r.1, r.2)
termination_by (u.map Prod.fst).countP fun k => decide (k ∉ seen)
decreasing_by
  have ht : t ∉ seen := by assumption
  have hmem : t ∈ u.map Prod.fst := by
    clear * - hf
    induction u with
    | nil => simp [fetch, List.lookup] at hf
    | cons a l ih =>
      rw [fetch, List.lookup] at hf
      by_cases hat : a.1 = t
      · simp [hat]
      · simp only [List.map_cons, List.mem_cons]
        right
        apply ih
        have hb : (t == a.1) = false := by
          simp only [beq_eq_false_iff_ne, ne_eq]
          exact fun he => hat he.symm
        rw [hb] at hf
        exact hf
  clear hf
  revert hmem
  generalize u.map Prod.fst = l
  intro hmem
  induction l with
  | nil => cases hmem
  | cons a l ih =>
    rw [List.countP_cons, List.countP_cons]
    by_cases hat : a = t
    · subst hat
      have h1 : decide (a ∉ a :: seen) = false := by simp
      have h2 : decide (a ∉ seen) = true := by simpa using ht
      rw [h1, h2, if_neg (by decide), if_pos rfl]
      have hmono : (l.countP fun k => decide (k ∉ a :: seen)) ≤
          (l.countP fun k => decide (k ∉ seen)) := by
        apply List.countP_mono_left
        intro k _ hk
        simp only [decide_eq_true_eq] at hk ⊢
        exact fun hkseen => hk (List.mem_cons_of_mem _ hkseen)
      omega
    · have ht2 : t ∈ l := by
        rcases List.mem_cons.mp hmem with h | h
        · exact absurd h.symm hat
        · exact h
      have heq : (decide (a ∉ t :: seen)) = (decide (a ∉ seen)) := by
        by_cases has : a ∈ seen
        · simp [has]
        · simp [has, hat]
      rw [heq]
      have hlt := ih ht2
      omega

/-- The chain of pages the upstream links together starting from a token:
`IsChain u o chain` says that, following `next` tokens from `o`, the upstream
stores exactly the token/page pairs of `chain`, ending with a page whose
`next` is absent (or a token the upstream does not know).  This is the "one
full traversal of the upstream collection" from the starting token. -/
inductive IsChain (u : Upstream) : Option PageToken → List (PageToken × Page) → Prop
  | nil : IsChain u none []
  | stop {t : PageToken} : fetch u t = none → IsChain u (some t) []
  | cons {t : PageToken} {p : Page} {rest : List (PageToken × Page)} :
      fetch u t = some p → IsChain u p.next rest → IsChain u (some t) ((t, p) :: rest)

/-- Concatenation of the records of a list of pages, in page order. -/
def pagesRecords (ps : List Page) : List RawRecord :=
  ps.flatMap Page.records

/-- The records of the upstream collection along a chain, in traversal
order. -/
def chainRecords (chain : List (PageToken × Page)) : List RawRecord :=
  pagesRecords (chain.map Prod.snd)

/-- Modelled from the spec: the Paginator's one-run behaviour (§4.2) as an
operational relation — `Produces u seen t ps w` says a run of the Paginator
over stable upstream `u`, having already visited `seen` and now at token `t`,
yields the page sequence `ps` with repeated-token warning flag `w`. -/
inductive Produces (u : Upstream) : List PageToken → PageToken → List Page → Bool → Prop
  | halt {seen : List PageToken} {t : PageToken} :
      t ∈ seen → Produces u seen t [] true
  | missing {seen : List PageToken} {t : PageToken} :
      t ∉ seen → fetch u t = none → Produces u seen t [] false
  | last {seen : List PageToken} {t : PageToken} {p : Page} :
      t ∉ seen → fetch u t = some p → p.next = none → Produces u seen t [p] false
  | step {seen : List PageToken} {t t2 : PageToken} {p : Page} {ps : List Page} {w : Bool} :
      t ∉ seen → fetch u t = some p → p.next = some t2 →
      Produces u (t :: seen) t2 ps w → Produces u seen t (p :: ps) w

/-- Extraction mode of a stream (§3): full refresh or incremental. -/
inductive Mode
  | fullRefresh
  | incremental
deriving DecidableEq, Repr

/-- StreamDescriptor (§3): the stream's unique name and its extraction mode;
in incremental mode the cursor field of a record is its `cv` component. -/
structure StreamDesc where
  name : String
  mode : Mode
deriving DecidableEq, Repr

/-- SyncState (§3): mapping from stream name to cursor value. -/
abbrev SyncState := List (String × Nat)

/-- The cursor value recorded for a stream, if any. -/
def lookupCursor (st : SyncState) (s : String) : Option Nat :=
  st.lookup s

/-- Update the cursor value recorded for a stream. -/
def setCursor (st : SyncState) (s : String) (v : Nat) : SyncState :=
  match st with
  | [] => [(s, v)]
  | (s', v') :: rest =>
    if s' = s then (s, v) :: rest else (s', v') :: setCursor rest s v

/-- The maximum cursor value among a list of records (0 when empty). -/
def maxCv (l : List RawRecord) : Nat :=
  l.foldr (fun r m => max r.cv m) 0

/-- Modelled from the spec: `Stream.read` (§4.3), missing from the fragment.
Full-refresh mode ignores the cursor and re-reads everything; incremental
mode reads all records and discards those with cursor value ≤ the provided
cursor (the client-side filtering fallback); with no prior cursor everything
is read. -/
def readStream (m : Mode) (data : List RawRecord) (c : Option Nat) :
    List RawRecord :=
  match m with
  | .fullRefresh => data
  | .incremental =>
    match c with
    | none => data
    | some cv => data.filter fun r => decide (cv < r.cv)

/-- Modelled from the spec: the Sync Engine's in-memory state update at a
stream's completion (§4.5, §4.3) — the updated cursor for the stream (the
maximum cursor value observed among its emitted records) is merged into the
running SyncState; full-refresh streams and streams that emitted nothing
leave the state unchanged. -/
def updState (d : StreamDesc) (emitted : List RawRecord) (st : SyncState) :
    SyncState :=
  match d.mode with
  | .fullRefresh => st
  | .incremental =>
    if emitted.isEmpty then st else setCursor st d.name (maxCv emitted)

/-- Protocol messages emitted by the Sync Engine: a Record of a stream, or a
Checkpoint snapshot of SyncState emitted when a stream completes (tagged with
the stream it closes out). -/
inductive Msg
  | record (stream : String) (r : RawRecord)
  | checkpoint (stream : String) (st : SyncState)
deriving DecidableEq, Repr

/-- Result of a sync run: the emitted message sequence, the persisted final
SyncState, and whether the run aborted on a stream failure. -/
structure RunResult where
  msgs : List Msg
  state : SyncState
  failed : Bool
deriving DecidableEq, Repr

/-- Modelled from the spec: the Sync Engine's `run` (§4.5), missing from the
fragment, under the default strict mode.  Streams are read sequentially in
the given order; each stream's records are forwarded immediately and one
Checkpoint with the updated cursor merged into the running SyncState closes
the stream out; a stream failure aborts the whole run with no further
records or checkpoints, leaving the state as of the last safe checkpoint. -/
def runEngine (up : String → Except Unit (List RawRecord))
    (streams : List StreamDesc) (st : SyncState) : RunResult :=
  match streams with
  | [] => ⟨[], st, false⟩
  | d :: rest =>
    match up d.name with
    | .error _ => ⟨[], st, true⟩
    | .ok data =>
      let emitted := readStream d.mode data (lookupCursor st d.name)
      let st2 := updState d emitted st
      let r := runEngine up rest st2
      ⟨emitted.map (Msg.record d.name) ++ Msg.checkpoint d.name st2 :: r.msgs,
        r.state, r.failed⟩

/-- The SyncState snapshots carried by the Checkpoint messages of a message
sequence, in emission order. -/
def checkpointStates (msgs : List Msg) : List SyncState :=
  msgs.filterMap fun m =>
    match m with
    | .checkpoint _ stc => some stc
    | _ => none

/-- The state as of the last checkpoint of a message sequence (the initial
state when no checkpoint was emitted). -/
def lastCheckpointState (msgs : List Msg) (st : SyncState) : SyncState :=
  ((checkpointStates msgs).getLast?).getD st

/-- Cursor comparison where an absent cursor is below everything: any value
recorded on the left is still recorded, and no smaller, on the right. -/
def cursorLe (a b : Option Nat) : Prop :=
  ∀ v, a = some v → ∃ w, b = some w ∧ v ≤ w

/-- Pointwise cursor ordering between two SyncStates: every stream's cursor
value on the left is ≤ its value on the right. -/
def stLe (st1 st2 : SyncState) : Prop :=
  ∀ s, cursorLe (lookupCursor st1 s) (lookupCursor st2 s)

/-- A cursor covers a data set when every record's cursor value is ≤ the
recorded cursor (in particular the cursor is present whenever data is). -/
def coveredBy (data : List RawRecord) (c : Option Nat) : Prop :=
  ∀ r ∈ data, ∃ v, c = some v ∧ r.cv ≤ v

/-- Stream name `s` occurs strictly before `s'` in a configured order. -/
def nameBefore (l : List String) (s s' : String) : Prop :=
  ∃ i j : Nat, i < j ∧ l[i]? = some s ∧ l[j]? = some s'

end ConnectorCore

namespace SourceToggl

/-- C1: `run()` is a thin launcher: on every invocation its trace consists of
exactly one construction of `SourceToggl` (with no constructor arguments),
followed by exactly one `launch` call handed that same connector, and nothing
else (no extraction, pagination, authentication or state-management events). -/
theorem run_is_thin_launcher (argv : List String) :
    ((run argv).countP RunEvent.isConstruct = 1) ∧
    ((run argv).countP RunEvent.isLaunch = 1) ∧
    ((run argv).length = 2) ∧
    (∀ s args, RunEvent.launchCall s args ∈ run argv →
      s = Connector.sourceToggl ∧ RunEvent.construct s ∈ run argv) := by
  refine ⟨by simp [run, List.countP, List.countP.go, RunEvent.isConstruct, RunEvent.isLaunch],
    by simp [run, List.countP, List.countP.go, RunEvent.isConstruct, RunEvent.isLaunch],
    by simp [run], ?_⟩
  intro s args hmem
  simp only [run, List.mem_cons, List.mem_singleton] at hmem
  rcases hmem with h | h | h
  · cases h
  · cases h
    exact ⟨rfl, by simp [run]⟩
  · cases h

/-- C10: `run()` forwards to `launch` exactly the argument list with the
program name removed (`sys.argv[1:]`): for an argv `prog :: rest` the launch
receives `rest` (so `argv[0]` is dropped), and an invocation with no extra
arguments passes the empty list. -/
theorem run_forwards_argv_tail :
    (∀ argv : List String, launchArgs (run argv) = some (argv.drop 1)) ∧
    (∀ (prog : String) (rest : List String),
      launchArgs (run (prog :: rest)) = some rest) ∧
    (∀ prog : String, launchArgs (run [prog]) = some []) := by
  refine ⟨?_, ?_, ?_⟩
  · intro argv; simp [run, launchArgs]
  · intro prog rest; simp [run, launchArgs]
  · intro prog; simp [run, launchArgs]

end SourceToggl

namespace ConnectorCore

theorem mem_of_fetch_eq_some {u : Upstream} {t : PageToken} {p : Page}
    (h : fetch u t = some p) : t ∈ u.map Prod.fst := by
  induction u with
  | nil => simp [fetch, List.lookup] at h
  | cons a l ih =>
    rw [fetch, List.lookup] at h
    by_cases hat : a.1 = t
    · simp [hat]
    · simp only [List.map_cons, List.mem_cons]
      right
      apply ih
      have hb : (t == a.1) = false := by
        simp only [beq_eq_false_iff_ne, ne_eq]
        exact fun he => hat he.symm
      rw [hb] at h
      exact h

theorem countP_unseen_lt {t : PageToken} {seen : List PageToken} :
    ∀ {l : List PageToken}, t ∈ l → t ∉ seen →
      (l.countP fun k => decide (k ∉ t :: seen)) <
        (l.countP fun k => decide (k ∉ seen)) := by
  intro l
  induction l with
  | nil => intro ht; cases ht
  | cons a l ih =>
    intro ht hts
    rw [List.countP_cons, List.countP_cons]
    by_cases hat : a = t
    · subst hat
      have h1 : decide (a ∉ a :: seen) = false := by simp
      have h2 : decide (a ∉ seen) = true := by simpa using hts
      rw [h1, h2, if_neg (by decide), if_pos rfl]
      have hmono : (l.countP fun k => decide (k ∉ a :: seen)) ≤
          (l.countP fun k => decide (k ∉ seen)) := by
        apply List.countP_mono_left
        intro k _ hk
        simp only [decide_eq_true_eq] at hk ⊢
        exact fun hkseen => hk (List.mem_cons_of_mem _ hkseen)
      omega
    · have ht' : t ∈ l := by
        rcases List.mem_cons.mp ht with h | h
        · exact absurd h.symm hat
        · exact h
      have heq : (decide (a ∉ t :: seen)) = (decide (a ∉ seen)) := by
        by_cases has : a ∈ seen
        · simp [has]
        · simp [has, hat]
      rw [heq]
      have := ih ht' hts
      omega

theorem paginate_mem {u : Upstream} {seen : List PageToken} {t : PageToken}
    (h : t ∈ seen) : paginate u seen t = ([], true) := by
  rw [paginate]; simp [h]

theorem paginate_none {u : Upstream} {seen : List PageToken} {t : PageToken}
    (h : t ∉ seen) (hf : fetch u t = none) : paginate u seen t = ([], false) := by
  rw [paginate, if_neg h]
  split
  · rfl
  · rename_i p heq
    rw [hf] at heq
    cases heq

theorem paginate_last {u : Upstream} {seen : List PageToken} {t : PageToken} {p : Page}
    (h : t ∉ seen) (hf : fetch u t = some p) (hn : p.next = none) :
    paginate u seen t = ([p], false) := by
  rw [paginate, if_neg h]
  split
  · rename_i heq
    rw [hf] at heq
    cases heq
  · rename_i q heq
    rw [hf] at heq
    injection heq with heq'
    subst heq'
    split
    · rfl
    · rename_i t2 heq2
      rw [hn] at heq2
      cases heq2

theorem paginate_step {u : Upstream} {seen : List PageToken} {t t2 : PageToken} {p : Page}
    (h : t ∉ seen) (hf : fetch u t = some p) (hn : p.next = some t2) :
    paginate u seen t =
      (p :: (paginate u (t :: seen) t2).1, (paginate u (t :: seen) t2).2) := by
  rw [paginate, if_neg h]
  split
  · rename_i heq
    rw [hf] at heq
    cases heq
  · rename_i q heq
    rw [hf] at heq
    injection heq with heq'
    subst heq'
    split
    · rename_i heq2
      rw [hn] at heq2
      cases heq2
    · rename_i t2' heq2
      rw [hn] at heq2
      injection heq2 with heq2'
      subst heq2'
      rfl

theorem paginate_length_le (u : Upstream) (seen : List PageToken) (t : PageToken) :
    (paginate u seen t).1.length ≤
      (u.map Prod.fst).countP fun k => decide (k ∉ seen) := by
  induction seen, t using paginate.induct u with
  | case1 seen t h => rw [paginate_mem h]; simp
  | case2 seen t h hf => rw [paginate_none h hf]; simp
  | case3 seen t h p hf hn =>
    rw [paginate_last h hf hn]
    have hpos : 0 < (u.map Prod.fst).countP fun k => decide (k ∉ seen) := by
      rw [List.countP_pos_iff]
      exact ⟨t, mem_of_fetch_eq_some hf, by simpa using h⟩
    simpa using hpos
  | case4 seen t h p hf t2 hn ih =>
    rw [paginate_step h hf hn]
    have hlt := countP_unseen_lt (mem_of_fetch_eq_some hf) h
    simp only [List.length_cons]
    omega

/-- C8: every page sequence produced by the Paginator is finite — its length
is bounded by the number of tokens the upstream holds — and a repeated
`PageToken` makes pagination halt immediately, reporting the warning flag,
instead of looping forever. -/
theorem paginator_always_finite (u : Upstream) (seen : List PageToken) (t : PageToken) :
    (paginate u seen t).1.length ≤ u.length ∧
    (t ∈ seen → paginate u seen t = ([], true)) := by
  constructor
  · calc (paginate u seen t).1.length
        ≤ (u.map Prod.fst).countP fun k => decide (k ∉ seen) :=
          paginate_length_le u seen t
      _ ≤ (u.map Prod.fst).length := List.countP_le_length _
      _ = u.length := List.length_map _ _
  · exact paginate_mem

theorem paginator_always_finite_witness :
    (0 : PageToken) ∈ [(0 : PageToken)] ∧
      paginate [((0 : PageToken), (⟨[⟨1, 1⟩], some 0⟩ : Page))] [0] 0 = ([], true) :=
  ⟨by decide,
    (paginator_always_finite [(0, ⟨[⟨1, 1⟩], some 0⟩)] [0] 0).2 (by decide)⟩

theorem paginate_follows_chain (u : Upstream) :
    ∀ (chain : List (PageToken × Page)) (t : PageToken) (seen : List PageToken),
      IsChain u (some t) chain →
      (chain.map Prod.fst).Nodup →
      (∀ s ∈ seen, (fetch u s).isSome = true) →
      (∀ s ∈ chain.map Prod.fst, s ∉ seen) →
      paginate u seen t = (chain.map Prod.snd, false) := by
  intro chain
  induction chain with
  | nil =>
    intro t seen hc _ hseen _
    cases hc with
    | stop hnone =>
      have ht : t ∉ seen := by
        intro hmem
        have hs := hseen t hmem
        rw [hnone] at hs
        simp at hs
      rw [paginate_none ht hnone]
      rfl
  | cons hd rest ih =>
    intro t seen hc hnd hseen hdisj
    cases hc with
    | cons hfetch hnext =>
      rename_i p
      have ht : t ∉ seen := hdisj t (by simp)
      simp only [List.map_cons, List.nodup_cons] at hnd
      cases hp : p.next with
      | none =>
        rw [hp] at hnext
        cases hnext
        rw [paginate_last ht hfetch hp]
        rfl
      | some t2 =>
        rw [hp] at hnext
        have hrec := ih t2 (t :: seen) hnext hnd.2
          (by
            intro s hs
            rcases List.mem_cons.mp hs with hs | hs
            · subst hs; rw [hfetch]; rfl
            · exact hseen s hs)
          (by
            intro s hs
            simp only [List.mem_cons, not_or]
            exact ⟨fun he => hnd.1 (he ▸ hs), hdisj s (List.mem_cons_of_mem _ hs)⟩)
        rw [paginate_step ht hfetch hp, hrec]
        rfl

/-- C7: for every starting token, the pages the Paginator yields are exactly
the upstream's chain of pages from that token — one full, order-preserving
traversal of the upstream collection, with no record repeated or skipped
relative to it — under the assumption that no `PageToken` repeats along the
chain; no repeated-token warning is reported. -/
theorem paginator_full_traversal (u : Upstream) (t0 : PageToken)
    (chain : List (PageToken × Page)) (hc : IsChain u (some t0) chain)
    (hnd : (chain.map Prod.fst).Nodup) :
    (paginate u [] t0).1 = chain.map Prod.snd ∧
    pagesRecords (paginate u [] t0).1 = chainRecords chain ∧
    (paginate u [] t0).2 = false := by
  have h := paginate_follows_chain u chain t0 [] hc hnd (by simp) (by simp)
  rw [h]
  exact ⟨rfl, rfl, rfl⟩

theorem paginator_full_traversal_witness :
    (IsChain [(0, ⟨[⟨1, 10⟩, ⟨2, 11⟩], some 1⟩), (1, ⟨[⟨3, 12⟩], none⟩)] (some 0)
        [(0, ⟨[⟨1, 10⟩, ⟨2, 11⟩], some 1⟩), (1, ⟨[⟨3, 12⟩], none⟩)] ∧
      (([(0, (⟨[⟨1, 10⟩, ⟨2, 11⟩], some 1⟩ : Page)), (1, ⟨[⟨3, 12⟩], none⟩)].map
          Prod.fst).Nodup)) ∧
    ((paginate [(0, ⟨[⟨1, 10⟩, ⟨2, 11⟩], some 1⟩), (1, ⟨[⟨3, 12⟩], none⟩)] [] 0).1 =
        [(0, (⟨[⟨1, 10⟩, ⟨2, 11⟩], some 1⟩ : Page)), (1, ⟨[⟨3, 12⟩], none⟩)].map
          Prod.snd ∧
      pagesRecords
          (paginate [(0, ⟨[⟨1, 10⟩, ⟨2, 11⟩], some 1⟩), (1, ⟨[⟨3, 12⟩], none⟩)] [] 0).1 =
        chainRecords [(0, ⟨[⟨1, 10⟩, ⟨2, 11⟩], some 1⟩), (1, ⟨[⟨3, 12⟩], none⟩)] ∧
      (paginate [(0, ⟨[⟨1, 10⟩, ⟨2, 11⟩], some 1⟩), (1, ⟨[⟨3, 12⟩], none⟩)] [] 0).2 =
        false) :=
  have hc : IsChain [(0, ⟨[⟨1, 10⟩, ⟨2, 11⟩], some 1⟩), (1, ⟨[⟨3, 12⟩], none⟩)] (some 0)
      [(0, ⟨[⟨1, 10⟩, ⟨2, 11⟩], some 1⟩), (1, ⟨[⟨3, 12⟩], none⟩)] :=
    IsChain.cons (by decide) (IsChain.cons (by decide) IsChain.nil)
  ⟨⟨hc, by decide⟩,
    paginator_full_traversal _ 0 _ hc (by decide)⟩

/-- The relation `Produces` is realized by the `paginate` function. -/
theorem produces_paginate (u : Upstream) (seen : List PageToken) (t : PageToken) :
    Produces u seen t (paginate u seen t).1 (paginate u seen t).2 := by
  induction seen, t using paginate.induct u with
  | case1 seen t h => rw [paginate_mem h]; exact Produces.halt h
  | case2 seen t h hf => rw [paginate_none h hf]; exact Produces.missing h hf
  | case3 seen t h p hf hn => rw [paginate_last h hf hn]; exact Produces.last h hf hn
  | case4 seen t h p hf t2 hn ih =>
    rw [paginate_step h hf hn]
    exact Produces.step h hf hn ih

theorem produces_deterministic (u : Upstream) {seen : List PageToken}
    {t : PageToken} {ps : List Page} {w : Bool} (h1 : Produces u seen t ps w) :
    ∀ {ps' : List Page} {w' : Bool},
      Produces u seen t ps' w' → ps = ps' ∧ w = w' := by
  induction h1 with
  | halt hmem =>
    intro ps' w' h2
    cases h2 with
    | halt _ => exact ⟨rfl, rfl⟩
    | missing hnm _ => exact absurd hmem hnm
    | last hnm _ _ => exact absurd hmem hnm
    | step hnm _ _ _ => exact absurd hmem hnm
  | missing hnm hf =>
    intro ps' w' h2
    cases h2 with
    | halt hmem => exact absurd hmem hnm
    | missing _ _ => exact ⟨rfl, rfl⟩
    | last _ hf2 _ => rw [hf] at hf2; cases hf2
    | step _ hf2 _ _ => rw [hf] at hf2; cases hf2
  | last hnm hf hn =>
    intro ps' w' h2
    cases h2 with
    | halt hmem => exact absurd hmem hnm
    | missing _ hf2 => rw [hf2] at hf; cases hf
    | last _ hf2 hn2 =>
      rw [hf] at hf2
      injection hf2 with hp
      subst hp
      exact ⟨rfl, rfl⟩
    | step _ hf2 hn2 _ =>
      rw [hf] at hf2
      injection hf2 with hp
      subst hp
      rw [hn] at hn2
      cases hn2
  | step hnm hf hn hrec ih =>
    intro ps' w' h2
    cases h2 with
    | halt hmem => exact absurd hmem hnm
    | missing _ hf2 => rw [hf2] at hf; cases hf
    | last _ hf2 hn2 =>
      rw [hf] at hf2
      injection hf2 with hp
      subst hp
      rw [hn] at hn2
      cases hn2
    | step _ hf2 hn2 hrec2 =>
      rw [hf] at hf2
      injection hf2 with hp
      subst hp
      rw [hn] at hn2
      injection hn2 with ht2
      subst ht2
      obtain ⟨hps, hw⟩ := ih hrec2
      exact ⟨by rw [hps], hw⟩

/-- C9: the Paginator is deterministic and restartable — two runs from the
same starting `PageToken` against the same stable upstream produce identical
page sequences (same records, same order, same continuation behaviour) and
the same warning flag. -/
theorem paginator_restartable (u : Upstream) (t : PageToken)
    (ps ps' : List Page) (w w' : Bool)
    (h1 : Produces u [] t ps w) (h2 : Produces u [] t ps' w') :
    ps = ps' ∧ w = w' :=
  produces_deterministic u h1 h2

theorem paginator_restartable_witness :
    Produces [((0 : PageToken), (⟨[⟨5, 6⟩], none⟩ : Page))] [] 0 [⟨[⟨5, 6⟩], none⟩] false ∧
      ([(⟨[⟨5, 6⟩], none⟩ : Page)] = [⟨[⟨5, 6⟩], none⟩] ∧ (false : Bool) = false) :=
  have hd : Produces [((0 : PageToken), (⟨[⟨5, 6⟩], none⟩ : Page))] [] 0
      [⟨[⟨5, 6⟩], none⟩] false :=
    Produces.last (by simp) (by decide) (by decide)
  ⟨hd, paginator_restartable _ 0 _ _ _ _ hd hd⟩

theorem lookupCursor_setCursor_self (st : SyncState) (s : String) (v : Nat) :
    lookupCursor (setCursor st s v) s = some v := by
  induction st with
  | nil => simp [setCursor, lookupCursor, List.lookup]
  | cons a rest ih =>
    rw [setCursor]
    by_cases h : a.1 = s
    · simp only [if_pos h]
      simp [lookupCursor, List.lookup]
    · simp only [if_neg h]
      rw [lookupCursor, List.lookup]
      have hb : (s == a.1) = false := by
        simp only [beq_eq_false_iff_ne, ne_eq]
        exact fun he => h he.symm
      rw [hb]
      exact ih

theorem lookupCursor_setCursor_ne (st : SyncState) {s s' : String} (v : Nat)
    (h : s' ≠ s) : lookupCursor (setCursor st s v) s' = lookupCursor st s' := by
  induction st with
  | nil =>
    rw [setCursor, lookupCursor, List.lookup]
    have hb : (s' == s) = false := by simpa using h
    rw [hb]
    rfl
  | cons a rest ih =>
    rw [setCursor]
    by_cases ha : a.1 = s
    · simp only [if_pos ha]
      rw [lookupCursor, List.lookup, lookupCursor, List.lookup]
      have hb : (s' == s) = false := by simpa using h
      have hb' : (s' == a.1) = false := by
        rw [ha]
        exact hb
      rw [hb, hb']
    · simp only [if_neg ha]
      rw [lookupCursor, List.lookup, lookupCursor, List.lookup]
      cases hsa : s' == a.1
      · exact ih
      · rfl

theorem le_maxCv {l : List RawRecord} {r : RawRecord} (h : r ∈ l) :
    r.cv ≤ maxCv l := by
  induction l with
  | nil => cases h
  | cons a l ih =>
    rw [maxCv, List.foldr_cons]
    rcases List.mem_cons.mp h with h | h
    · subst h; exact Nat.le_max_left _ _
    · exact Nat.le_trans (ih h) (Nat.le_max_right _ _)

theorem maxCv_mem {l : List RawRecord} (h : l ≠ []) :
    ∃ r ∈ l, r.cv = maxCv l := by
  induction l with
  | nil => exact absurd rfl h
  | cons a l ih =>
    cases l with
    | nil =>
      refine ⟨a, by simp, ?_⟩
      rw [maxCv]
      simp
    | cons b l' =>
      obtain ⟨r, hr, hrv⟩ := ih (by simp)
      rcases Nat.le_total a.cv (maxCv (b :: l')) with hle | hle
      · refine ⟨r, List.mem_cons_of_mem _ hr, ?_⟩
        rw [maxCv, List.foldr_cons]
        rw [hrv]
        exact (Nat.max_eq_right hle).symm
      · refine ⟨a, by simp, ?_⟩
        rw [maxCv, List.foldr_cons]
        exact (Nat.max_eq_left hle).symm

theorem runEngine_nil (up : String → Except Unit (List RawRecord))
    (st : SyncState) : runEngine up [] st = ⟨[], st, false⟩ := rfl

theorem runEngine_error {up : String → Except Unit (List RawRecord)}
    {d : StreamDesc} (rest : List StreamDesc) (st : SyncState)
    (h : up d.name = .error ()) :
    runEngine up (d :: rest) st = ⟨[], st, true⟩ := by
  rw [runEngine, h]

theorem runEngine_ok {up : String → Except Unit (List RawRecord)}
    {d : StreamDesc} {data : List RawRecord} (rest : List StreamDesc)
    (st : SyncState) (h : up d.name = .ok data) :
    runEngine up (d :: rest) st =
      ⟨(readStream d.mode data (lookupCursor st d.name)).map (Msg.record d.name) ++
          Msg.checkpoint d.name (updState d (readStream d.mode data (lookupCursor st d.name)) st) ::
            (runEngine up rest (updState d (readStream d.mode data (lookupCursor st d.name)) st)).msgs,
        (runEngine up rest (updState d (readStream d.mode data (lookupCursor st d.name)) st)).state,
        (runEngine up rest (updState d (readStream d.mode data (lookupCursor st d.name)) st)).failed⟩ := by
  rw [runEngine, h]

theorem record_name_mem {up : String → Except Unit (List RawRecord)} :
    ∀ {streams : List StreamDesc} {st : SyncState} {s : String} {r : RawRecord},
      Msg.record s r ∈ (runEngine up streams st).msgs →
        s ∈ streams.map StreamDesc.name := by
  intro streams
  induction streams with
  | nil => intro st s r h; rw [runEngine_nil] at h; cases h
  | cons d rest ih =>
    intro st s r h
    cases hup : up d.name with
    | error e =>
      cases e
      rw [runEngine_error rest st hup] at h
      cases h
    | ok data =>
      rw [runEngine_ok rest st hup] at h
      simp only [List.mem_append, List.mem_cons] at h
      rcases h with h | h | h
      · obtain ⟨r', _, heq⟩ := List.mem_map.mp h
        injection heq with hs _
        simp [hs]
      · cases h
      · exact List.mem_cons_of_mem _ (ih h)

theorem checkpoint_name_mem {up : String → Except Unit (List RawRecord)} :
    ∀ {streams : List StreamDesc} {st : SyncState} {s : String} {stc : SyncState},
      Msg.checkpoint s stc ∈ (runEngine up streams st).msgs →
        s ∈ streams.map StreamDesc.name := by
  intro streams
  induction streams with
  | nil => intro st s stc h; rw [runEngine_nil] at h; cases h
  | cons d rest ih =>
    intro st s stc h
    cases hup : up d.name with
    | error e =>
      cases e
      rw [runEngine_error rest st hup] at h
      cases h
    | ok data =>
      rw [runEngine_ok rest st hup] at h
      simp only [List.mem_append, List.mem_cons] at h
      rcases h with h | h | h
      · obtain ⟨r', _, heq⟩ := List.mem_map.mp h
        cases heq
      · injection h with hs _
        simp [hs]
      · exact List.mem_cons_of_mem _ (ih h)

theorem lookupCursor_updState_ne {d : StreamDesc} {emitted : List RawRecord}
    {st : SyncState} {s : String} (h : s ≠ d.name) :
    lookupCursor (updState d emitted st) s = lookupCursor st s := by
  rw [updState]
  cases d.mode with
  | fullRefresh => rfl
  | incremental =>
    by_cases he : emitted.isEmpty
    · rw [if_pos he]
    · rw [if_neg he]
      exact lookupCursor_setCursor_ne st _ h

theorem lookupCursor_run_not_mem {up : String → Except Unit (List RawRecord)} :
    ∀ {streams : List StreamDesc} {st : SyncState} {s : String},
      s ∉ streams.map StreamDesc.name →
        lookupCursor (runEngine up streams st).state s = lookupCursor st s := by
  intro streams
  induction streams with
  | nil => intro st s _; rw [runEngine_nil]
  | cons d rest ih =>
    intro st s h
    simp only [List.map_cons, List.mem_cons, not_or] at h
    cases hup : up d.name with
    | error e =>
      cases e
      rw [runEngine_error rest st hup]
    | ok data =>
      rw [runEngine_ok rest st hup]
      rw [ih h.2]
      exact lookupCursor_updState_ne h.1

/-- C6: for an incremental stream read with a provided cursor under the
client-side filtering fallback, every upstream record with cursor value ≤ the
provided cursor is discarded and every record with a strictly greater value
is emitted, and the Checkpoint emitted afterwards carries the maximum cursor
value observed among the emitted records. -/
theorem incremental_client_side_filtering
    (up : String → Except Unit (List RawRecord)) (s : String)
    (data : List RawRecord) (c : Nat) (st : SyncState)
    (hup : up s = .ok data) (hc : lookupCursor st s = some c) :
    (∀ r ∈ data,
      (Msg.record s r ∈ (runEngine up [⟨s, .incremental⟩] st).msgs ↔ c < r.cv)) ∧
    (∃ stc, Msg.checkpoint s stc ∈ (runEngine up [⟨s, .incremental⟩] st).msgs ∧
      ((data.filter fun r => decide (c < r.cv)) ≠ [] →
        ∃ m, lookupCursor stc s = some m ∧
          (∀ r ∈ data, c < r.cv → r.cv ≤ m) ∧
          (∃ r ∈ data, c < r.cv ∧ r.cv = m))) := by
  have hmsgs : (runEngine up [⟨s, .incremental⟩] st).msgs =
      (data.filter fun r => decide (c < r.cv)).map (Msg.record s) ++
        [Msg.checkpoint s
          (updState ⟨s, .incremental⟩ (data.filter fun r => decide (c < r.cv)) st)] := by
    simp only [runEngine, hup, hc, readStream]
  constructor
  · intro r hr
    rw [hmsgs]
    constructor
    · intro hmem
      simp only [List.mem_append, List.mem_cons, List.not_mem_nil, or_false] at hmem
      rcases hmem with hmem | hmem
      · obtain ⟨r', hr', heq⟩ := List.mem_map.mp hmem
        injection heq with _ hrr
        subst hrr
        have := List.mem_filter.mp hr'
        simpa using this.2
      · cases hmem
    · intro hcv
      simp only [List.mem_append]
      left
      exact List.mem_map.mpr ⟨r, List.mem_filter.mpr ⟨hr, by simpa using hcv⟩, rfl⟩
  · refine ⟨updState ⟨s, .incremental⟩ (data.filter fun r => decide (c < r.cv)) st,
      ?_, ?_⟩
    · rw [hmsgs]
      simp
    · intro hne
      refine ⟨maxCv (data.filter fun r => decide (c < r.cv)), ?_, ?_, ?_⟩
      · have hupd : updState ⟨s, .incremental⟩
            (data.filter fun r => decide (c < r.cv)) st =
            if (data.filter fun r => decide (c < r.cv)).isEmpty then st
            else setCursor st s (maxCv (data.filter fun r => decide (c < r.cv))) := rfl
        rw [hupd, if_neg (by simpa [List.isEmpty_iff] using hne)]
        exact lookupCursor_setCursor_self st s _
      · intro r hr hcv
        exact le_maxCv (List.mem_filter.mpr ⟨hr, by simpa using hcv⟩)
      · obtain ⟨r, hr, hrv⟩ := maxCv_mem hne
        have hm := List.mem_filter.mp hr
        exact ⟨r, hm.1, by simpa using hm.2, hrv⟩

theorem incremental_client_side_filtering_witness :
    ((fun s' => if s' = "projects"
        then Except.ok [(⟨20240102, 0⟩ : RawRecord), ⟨20231231, 1⟩]
        else Except.error ()) "projects" =
      Except.ok [(⟨20240102, 0⟩ : RawRecord), ⟨20231231, 1⟩]) ∧
    (lookupCursor [("projects", 20240101)] "projects" = some 20240101) ∧
    ((∀ r ∈ [(⟨20240102, 0⟩ : RawRecord), ⟨20231231, 1⟩],
      (Msg.record "projects" r ∈
          (runEngine (fun s' => if s' = "projects"
              then Except.ok [(⟨20240102, 0⟩ : RawRecord), ⟨20231231, 1⟩]
              else Except.error ()) [⟨"projects", .incremental⟩]
            [("projects", 20240101)]).msgs ↔ 20240101 < r.cv)) ∧
    (∃ stc, Msg.checkpoint "projects" stc ∈
        (runEngine (fun s' => if s' = "projects"
            then Except.ok [(⟨20240102, 0⟩ : RawRecord), ⟨20231231, 1⟩]
            else Except.error ()) [⟨"projects", .incremental⟩]
          [("projects", 20240101)]).msgs ∧
      (([(⟨20240102, 0⟩ : RawRecord), ⟨20231231, 1⟩].filter
          fun r => decide (20240101 < r.cv)) ≠ [] →
        ∃ m, lookupCursor stc "projects" = some m ∧
          (∀ r ∈ [(⟨20240102, 0⟩ : RawRecord), ⟨20231231, 1⟩],
            20240101 < r.cv → r.cv ≤ m) ∧
          (∃ r ∈ [(⟨20240102, 0⟩ : RawRecord), ⟨20231231, 1⟩],
            20240101 < r.cv ∧ r.cv = m)))) :=
  ⟨rfl, by decide,
    incremental_client_side_filtering _ "projects"
      [⟨20240102, 0⟩, ⟨20231231, 1⟩] 20240101 [("projects", 20240101)]
      rfl (by decide)⟩

theorem checkpointStates_map_record (s : String) (l : List RawRecord) :
    checkpointStates (l.map (Msg.record s)) = [] := by
  induction l with
  | nil => rfl
  | cons a l ih =>
    rw [List.map_cons, checkpointStates, List.filterMap_cons]
    exact ih

theorem checkpointStates_append (m1 m2 : List Msg) :
    checkpointStates (m1 ++ m2) = checkpointStates m1 ++ checkpointStates m2 :=
  List.filterMap_append _ _ _

/-- The final state of every run is the state as of its last emitted
checkpoint (the initial state when none was emitted). -/
theorem state_eq_lastCheckpointState
    (up : String → Except Unit (List RawRecord)) :
    ∀ (streams : List StreamDesc) (st : SyncState),
      (runEngine up streams st).state =
        lastCheckpointState (runEngine up streams st).msgs st := by
  intro streams
  induction streams with
  | nil =>
    intro st
    rw [runEngine_nil]
    rfl
  | cons d rest ih =>
    intro st
    cases hup : up d.name with
    | error e =>
      cases e
      rw [runEngine_error rest st hup]
      rfl
    | ok data =>
      rw [runEngine_ok rest st hup]
      simp only [lastCheckpointState, checkpointStates_append,
        checkpointStates_map_record, List.nil_append]
      rw [show checkpointStates (Msg.checkpoint d.name
          (updState d (readStream d.mode data (lookupCursor st d.name)) st) ::
            (runEngine up rest (updState d (readStream d.mode data
              (lookupCursor st d.name)) st)).msgs) =
          updState d (readStream d.mode data (lookupCursor st d.name)) st ::
            checkpointStates (runEngine up rest (updState d (readStream d.mode data
              (lookupCursor st d.name)) st)).msgs from by
        rw [checkpointStates, List.filterMap_cons]; rfl]
      cases hcs : checkpointStates (runEngine up rest (updState d (readStream d.mode data
          (lookupCursor st d.name)) st)).msgs with
      | nil =>
        have := ih (updState d (readStream d.mode data (lookupCursor st d.name)) st)
        rw [lastCheckpointState, hcs] at this
        simpa using this
      | cons c cs =>
        have hth := ih (updState d (readStream d.mode data (lookupCursor st d.name)) st)
        rw [lastCheckpointState, hcs] at hth
        rw [hth]
        obtain ⟨x, hx⟩ := Option.isSome_iff_exists.mp
          (List.getLast?_isSome.mpr (List.cons_ne_nil c cs))
        rw [hx, List.getLast?_cons_cons, hx]
        rfl

/-- C4: under the default strict mode, a failing stream aborts the whole run:
the run is marked failed, its message sequence is exactly that of the run over
the successfully completed prefix (so no checkpoint is emitted beyond the last
successfully completed stream), and the persisted SyncState equals the state
as of the last safe checkpoint. -/
theorem strict_mode_abort (up : String → Except Unit (List RawRecord))
    (done : List StreamDesc) (f : StreamDesc) (later : List StreamDesc)
    (st : SyncState)
    (hdone : ∀ d ∈ done, ∃ data, up d.name = .ok data)
    (hf : up f.name = .error ()) :
    (runEngine up (done ++ f :: later) st).failed = true ∧
    (runEngine up (done ++ f :: later) st).msgs = (runEngine up done st).msgs ∧
    (runEngine up (done ++ f :: later) st).state = (runEngine up done st).state ∧
    (runEngine up (done ++ f :: later) st).state =
      lastCheckpointState (runEngine up (done ++ f :: later) st).msgs st := by
  have hmain : ∀ (done : List StreamDesc) (st : SyncState),
      (∀ d ∈ done, ∃ data, up d.name = .ok data) →
      (runEngine up (done ++ f :: later) st).failed = true ∧
      (runEngine up (done ++ f :: later) st).msgs = (runEngine up done st).msgs ∧
      (runEngine up (done ++ f :: later) st).state = (runEngine up done st).state := by
    intro done
    induction done with
    | nil =>
      intro st _
      rw [List.nil_append, runEngine_error later st hf, runEngine_nil]
      exact ⟨rfl, rfl, rfl⟩
    | cons d done' ih =>
      intro st hdone'
      obtain ⟨data, hd⟩ := hdone' d (by simp)
      rw [List.cons_append, runEngine_ok (done' ++ f :: later) st hd,
        runEngine_ok done' st hd]
      obtain ⟨h1, h2, h3⟩ := ih
        (updState d (readStream d.mode data (lookupCursor st d.name)) st)
        (fun d' hd' => hdone' d' (List.mem_cons_of_mem _ hd'))
      exact ⟨h1, by rw [h2], h3⟩
  obtain ⟨h1, h2, h3⟩ := hmain done st hdone
  exact ⟨h1, h2, h3, state_eq_lastCheckpointState up (done ++ f :: later) st⟩

theorem strict_mode_abort_witness :
    (∀ d ∈ [({ name := "a", mode := Mode.fullRefresh } : StreamDesc)],
      ∃ data, (fun s' => if s' = "a"
        then Except.ok [(⟨3, 0⟩ : RawRecord)] else Except.error ()) d.name =
          .ok data) ∧
    ((fun s' => if s' = "a"
        then Except.ok [(⟨3, 0⟩ : RawRecord)] else Except.error ())
      ({ name := "b", mode := Mode.incremental } : StreamDesc).name =
        .error ()) ∧
    ((runEngine (fun s' => if s' = "a"
        then Except.ok [(⟨3, 0⟩ : RawRecord)] else Except.error ())
      ([{ name := "a", mode := Mode.fullRefresh }] ++
        { name := "b", mode := Mode.incremental } :: []) []).failed = true ∧
    (runEngine (fun s' => if s' = "a"
        then Except.ok [(⟨3, 0⟩ : RawRecord)] else Except.error ())
      ([{ name := "a", mode := Mode.fullRefresh }] ++
        { name := "b", mode := Mode.incremental } :: []) []).msgs =
      (runEngine (fun s' => if s' = "a"
          then Except.ok [(⟨3, 0⟩ : RawRecord)] else Except.error ())
        [{ name := "a", mode := Mode.fullRefresh }] []).msgs ∧
    (runEngine (fun s' => if s' = "a"
        then Except.ok [(⟨3, 0⟩ : RawRecord)] else Except.error ())
      ([{ name := "a", mode := Mode.fullRefresh }] ++
        { name := "b", mode := Mode.incremental } :: []) []).state =
      (runEngine (fun s' => if s' = "a"
          then Except.ok [(⟨3, 0⟩ : RawRecord)] else Except.error ())
        [{ name := "a", mode := Mode.fullRefresh }] []).state ∧
    (runEngine (fun s' => if s' = "a"
        then Except.ok [(⟨3, 0⟩ : RawRecord)] else Except.error ())
      ([{ name := "a", mode := Mode.fullRefresh }] ++
        { name := "b", mode := Mode.incremental } :: []) []).state =
      lastCheckpointState
        (runEngine (fun s' => if s' = "a"
            then Except.ok [(⟨3, 0⟩ : RawRecord)] else Except.error ())
          ([{ name := "a", mode := Mode.fullRefresh }] ++
            { name := "b", mode := Mode.incremental } :: []) []).msgs []) :=
  ⟨fun d hd => by
      rcases List.mem_singleton.mp hd with rfl
      exact ⟨[⟨3, 0⟩], rfl⟩,
    rfl,
    strict_mode_abort _ [{ name := "a", mode := Mode.fullRefresh }]
      { name := "b", mode := Mode.incremental } [] []
      (fun d hd => by
        rcases List.mem_singleton.mp hd with rfl
        exact ⟨[⟨3, 0⟩], rfl⟩)
      rfl⟩

theorem stLe_refl (st : SyncState) : stLe st st :=
  fun _ v hv => ⟨v, hv, Nat.le_refl v⟩

theorem stLe_trans {a b c : SyncState} (h1 : stLe a b) (h2 : stLe b c) :
    stLe a c := by
  intro s v hv
  obtain ⟨w, hw, hvw⟩ := h1 s v hv
  obtain ⟨x, hx, hwx⟩ := h2 s w hw
  exact ⟨x, hx, Nat.le_trans hvw hwx⟩

/-- Where the engine's state update leaves a stream's own cursor: unchanged,
or (for a nonempty incremental emission) set to the maximum emitted cursor. -/
theorem lookupCursor_updState_self (d : StreamDesc) (E : List RawRecord)
    (st : SyncState) :
    lookupCursor (updState d E st) d.name = lookupCursor st d.name ∨
      (d.mode = Mode.incremental ∧ E ≠ [] ∧
        lookupCursor (updState d E st) d.name = some (maxCv E)) := by
  rw [updState]
  cases hm : d.mode with
  | fullRefresh => exact Or.inl rfl
  | incremental =>
    by_cases he : E.isEmpty
    · rw [if_pos he]
      exact Or.inl rfl
    · rw [if_neg he]
      exact Or.inr ⟨rfl, by simpa [List.isEmpty_iff] using he,
        lookupCursor_setCursor_self st d.name _⟩

/-- The engine's state update at a stream's completion never decreases any
stream's cursor. -/
theorem stLe_updState (d : StreamDesc) (data : List RawRecord) (st : SyncState) :
    stLe st (updState d (readStream d.mode data (lookupCursor st d.name)) st) := by
  intro s
  by_cases hs : s = d.name
  · subst hs
    rcases lookupCursor_updState_self d
        (readStream d.mode data (lookupCursor st d.name)) st with
      h | ⟨hm, hne, h⟩
    · rw [h]
      exact fun v hv => ⟨v, hv, Nat.le_refl v⟩
    · rw [h]
      intro v hv
      refine ⟨maxCv (readStream d.mode data (lookupCursor st d.name)), rfl, ?_⟩
      obtain ⟨r, hr, hrv⟩ := maxCv_mem hne
      rw [hm, hv] at hr
      simp only [readStream] at hr
      have hf := List.mem_filter.mp hr
      have hlt : v < r.cv := by simpa using hf.2
      omega
  · rw [lookupCursor_updState_ne hs]
    exact fun v hv => ⟨v, hv, Nat.le_refl v⟩

/-- Along any run, the initial state followed by the successive checkpointed
states forms a `stLe`-increasing sequence, all of them below the final
state. -/
theorem pairwise_stLe_run (up : String → Except Unit (List RawRecord)) :
    ∀ (streams : List StreamDesc) (st : SyncState),
      List.Pairwise stLe (st :: checkpointStates (runEngine up streams st).msgs) ∧
      stLe st (runEngine up streams st).state ∧
      (∀ c ∈ checkpointStates (runEngine up streams st).msgs,
        stLe c (runEngine up streams st).state) := by
  intro streams
  induction streams with
  | nil =>
    intro st
    rw [runEngine_nil]
    refine ⟨by simp [checkpointStates], stLe_refl st, ?_⟩
    intro c hc
    simp [checkpointStates] at hc
  | cons d rest ih =>
    intro st
    cases hup : up d.name with
    | error e =>
      cases e
      rw [runEngine_error rest st hup]
      refine ⟨by simp [checkpointStates], stLe_refl st, ?_⟩
      intro c hc
      simp [checkpointStates] at hc
    | ok data =>
      rw [runEngine_ok rest st hup]
      simp only [checkpointStates_append, checkpointStates_map_record,
        List.nil_append]
      rw [show checkpointStates (Msg.checkpoint d.name
          (updState d (readStream d.mode data (lookupCursor st d.name)) st) ::
            (runEngine up rest (updState d (readStream d.mode data
              (lookupCursor st d.name)) st)).msgs) =
          updState d (readStream d.mode data (lookupCursor st d.name)) st ::
            checkpointStates (runEngine up rest (updState d (readStream d.mode data
              (lookupCursor st d.name)) st)).msgs from by
        rw [checkpointStates, List.filterMap_cons]; rfl]
      obtain ⟨ihp, ihs, ihc⟩ :=
        ih (updState d (readStream d.mode data (lookupCursor st d.name)) st)
      have hstep : stLe st
          (updState d (readStream d.mode data (lookupCursor st d.name)) st) :=
        stLe_updState d data st
      have htail := (List.pairwise_cons.mp ihp).1
      refine ⟨?_, stLe_trans hstep ihs, ?_⟩
      · rw [List.pairwise_cons]
        refine ⟨?_, ihp⟩
        intro y hy
        rcases List.mem_cons.mp hy with hy | hy
        · subst hy; exact hstep
        · exact stLe_trans hstep (htail y hy)
      · intro c hc
        rcases List.mem_cons.mp hc with hc | hc
        · subst hc; exact ihs
        · exact ihc c hc

/-- The checkpointed states of two consecutive runs — the second starting
from the first run's final state — form one `stLe`-increasing sequence. -/
theorem pairwise_stLe_two_runs
    (up1 up2 : String → Except Unit (List RawRecord))
    (streams1 streams2 : List StreamDesc) (st : SyncState) :
    List.Pairwise stLe
      (st :: (checkpointStates (runEngine up1 streams1 st).msgs ++
        checkpointStates
          (runEngine up2 streams2 (runEngine up1 streams1 st).state).msgs)) := by
  obtain ⟨hp1, hs1, hc1⟩ := pairwise_stLe_run up1 streams1 st
  obtain ⟨hp2, _, _⟩ :=
    pairwise_stLe_run up2 streams2 (runEngine up1 streams1 st).state
  have hp2' := List.pairwise_cons.mp hp2
  rw [List.pairwise_cons]
  constructor
  · intro y hy
    rcases List.mem_append.mp hy with hy | hy
    · exact (List.pairwise_cons.mp hp1).1 y hy
    · exact stLe_trans hs1 (hp2'.1 y hy)
  · rw [List.pairwise_append]
    refine ⟨(List.pairwise_cons.mp hp1).2, hp2'.2, ?_⟩
    intro a ha b hb
    exact stLe_trans (hc1 a ha) (hp2'.1 b hb)

/-- C5: cursor monotonicity — within one sync run and across a second run
resumed from the first run's persisted state, whenever one Checkpoint is
emitted before another, every stream's cursor value recorded in the earlier
Checkpoint is ≤ the value recorded for that stream in the later one. -/
theorem cursor_monotone_across_checkpoints
    (up1 up2 : String → Except Unit (List RawRecord))
    (streams1 streams2 : List StreamDesc) (st : SyncState)
    (xs ys : List Msg) (s1 s2 : String) (st1 st2 : SyncState)
    (hsplit : (runEngine up1 streams1 st).msgs ++
        (runEngine up2 streams2 (runEngine up1 streams1 st).state).msgs =
      xs ++ Msg.checkpoint s1 st1 :: ys)
    (hmem : Msg.checkpoint s2 st2 ∈ ys) :
    stLe st1 st2 := by
  have hpair := pairwise_stLe_two_runs up1 up2 streams1 streams2 st
  rw [← checkpointStates_append, hsplit, checkpointStates_append] at hpair
  rw [show checkpointStates (Msg.checkpoint s1 st1 :: ys) =
      st1 :: checkpointStates ys from by
    rw [checkpointStates, List.filterMap_cons]; rfl] at hpair
  have hst2 : st2 ∈ checkpointStates ys := by
    rw [checkpointStates]
    exact List.mem_filterMap.mpr ⟨Msg.checkpoint s2 st2, hmem, rfl⟩
  have hp := (List.pairwise_cons.mp hpair).2
  have hp2 := (List.pairwise_append.mp hp).2.1
  exact (List.pairwise_cons.mp hp2).1 st2 hst2

theorem cursor_monotone_across_checkpoints_witness :
    ((runEngine (fun s' => if s' = "a"
          then Except.ok [(⟨5, 0⟩ : RawRecord)] else Except.error ())
        [{ name := "a", mode := Mode.incremental }] []).msgs ++
      (runEngine (fun s' => if s' = "a"
          then Except.ok [(⟨5, 0⟩ : RawRecord)] else Except.error ())
        [{ name := "a", mode := Mode.incremental }]
        (runEngine (fun s' => if s' = "a"
            then Except.ok [(⟨5, 0⟩ : RawRecord)] else Except.error ())
          [{ name := "a", mode := Mode.incremental }] []).state).msgs =
      [Msg.record "a" ⟨5, 0⟩] ++
        Msg.checkpoint "a" [("a", 5)] :: [Msg.checkpoint "a" [("a", 5)]]) ∧
    (Msg.checkpoint "a" [("a", 5)] ∈ [Msg.checkpoint "a" [("a", 5)]]) ∧
    stLe [("a", 5)] [("a", 5)] :=
  ⟨by decide, by decide,
    cursor_monotone_across_checkpoints
      (fun s' => if s' = "a"
        then Except.ok [(⟨5, 0⟩ : RawRecord)] else Except.error ())
      (fun s' => if s' = "a"
        then Except.ok [(⟨5, 0⟩ : RawRecord)] else Except.error ())
      [{ name := "a", mode := Mode.incremental }]
      [{ name := "a", mode := Mode.incremental }] []
      [Msg.record "a" ⟨5, 0⟩] [Msg.checkpoint "a" [("a", 5)]]
      "a" "a" [("a", 5)] [("a", 5)]
      (by decide) (by decide)⟩

/-- An incremental read under a covering cursor emits nothing. -/
theorem read_closed {data : List RawRecord} {c : Option Nat}
    (h : coveredBy data c) : readStream Mode.incremental data c = [] := by
  cases c with
  | none =>
    cases data with
    | nil => rfl
    | cons a l =>
      obtain ⟨v, hv, _⟩ := h a (by simp)
      cases hv
  | some v =>
    simp only [readStream]
    rw [List.eq_nil_iff_forall_not_mem]
    intro r hrf
    have hf := List.mem_filter.mp hrf
    obtain ⟨w, hw, hle⟩ := h r hf.1
    injection hw with hw'
    subst hw'
    have hlt : v < r.cv := by simpa using hf.2
    omega

/-- Where an incremental state update leaves the stream's own cursor. -/
theorem lookupCursor_updState_inc (d : StreamDesc) (hm : d.mode = Mode.incremental)
    (E : List RawRecord) (st : SyncState) :
    lookupCursor (updState d E st) d.name =
      if E.isEmpty then lookupCursor st d.name else some (maxCv E) := by
  simp only [updState, hm]
  by_cases he : E.isEmpty
  · rw [if_pos he, if_pos he]
  · rw [if_neg he, if_neg he]
    exact lookupCursor_setCursor_self st d.name _

/-- After an incremental read, the stream's updated cursor covers the whole
upstream data set. -/
theorem coveredBy_inc (data : List RawRecord) (c : Option Nat) :
    coveredBy data
      (if (readStream Mode.incremental data c).isEmpty then c
        else some (maxCv (readStream Mode.incremental data c))) := by
  intro r hr
  cases c with
  | none =>
    simp only [readStream]
    have hne : ¬ data.isEmpty = true := by
      intro h
      rw [List.isEmpty_iff] at h
      subst h
      cases hr
    rw [if_neg hne]
    exact ⟨maxCv data, rfl, le_maxCv hr⟩
  | some v =>
    simp only [readStream]
    by_cases he : (data.filter fun r => decide (v < r.cv)).isEmpty
    · rw [if_pos he]
      rw [List.isEmpty_iff] at he
      have hnl : ¬ v < r.cv := by
        intro hlt
        have hin : r ∈ data.filter fun r => decide (v < r.cv) :=
          List.mem_filter.mpr ⟨hr, by simpa using hlt⟩
        rw [he] at hin
        cases hin
      exact ⟨v, rfl, by omega⟩
    · rw [if_neg he]
      rw [List.isEmpty_iff] at he
      by_cases hlt : v < r.cv
      · exact ⟨_, rfl, le_maxCv (List.mem_filter.mpr ⟨hr, by simpa using hlt⟩)⟩
      · obtain ⟨r', hr', hrv⟩ := maxCv_mem he
        have hf := List.mem_filter.mp hr'
        have hlt' : v < r'.cv := by simpa using hf.2
        exact ⟨_, rfl, by omega⟩

/-- After a successful run, the persisted cursor of every incremental stream
covers that stream's whole upstream data set. -/
theorem run_ok_closes_incremental (up : String → Except Unit (List RawRecord)) :
    ∀ (streams : List StreamDesc) (st : SyncState),
      (streams.map StreamDesc.name).Nodup →
      (runEngine up streams st).failed = false →
      ∀ d ∈ streams, d.mode = Mode.incremental →
        ∀ data, up d.name = .ok data →
          coveredBy data (lookupCursor (runEngine up streams st).state d.name) := by
  intro streams
  induction streams with
  | nil =>
    intro st _ _ d hd
    cases hd
  | cons d0 rest ih =>
    intro st hnodup hok d hd hm data hdata
    simp only [List.map_cons, List.nodup_cons] at hnodup
    cases hup : up d0.name with
    | error e =>
      cases e
      rw [runEngine_error rest st hup] at hok
      cases hok
    | ok data0 =>
      rw [runEngine_ok rest st hup] at hok ⊢
      rcases List.mem_cons.mp hd with hdd | hdd
      · subst hdd
        rw [lookupCursor_run_not_mem hnodup.1]
        rw [hup] at hdata
        injection hdata with hdd'
        subst hdd'
        rw [hm, lookupCursor_updState_inc d hm]
        exact coveredBy_inc data0 (lookupCursor st d.name)
      · exact ih _ hnodup.2 hok d hdd hm data hdata

/-- A run whose initial state already covers every incremental stream's data
emits no Record for any incremental stream. -/
theorem run_no_records_of_closed (up : String → Except Unit (List RawRecord)) :
    ∀ (streams : List StreamDesc) (st : SyncState),
      (streams.map StreamDesc.name).Nodup →
      (∀ d ∈ streams, d.mode = Mode.incremental →
        ∀ data, up d.name = .ok data → coveredBy data (lookupCursor st d.name)) →
      ∀ d ∈ streams, d.mode = Mode.incremental →
        ∀ r : RawRecord, Msg.record d.name r ∉ (runEngine up streams st).msgs := by
  intro streams
  induction streams with
  | nil =>
    intro st _ _ d hd
    cases hd
  | cons d0 rest ih =>
    intro st hnodup hcov d hd hm r hmem
    simp only [List.map_cons, List.nodup_cons] at hnodup
    cases hup : up d0.name with
    | error e =>
      cases e
      rw [runEngine_error rest st hup] at hmem
      cases hmem
    | ok data0 =>
      rw [runEngine_ok rest st hup] at hmem
      have hcond : ∀ d' ∈ rest, d'.mode = Mode.incremental →
          ∀ data', up d'.name = .ok data' →
            coveredBy data'
              (lookupCursor (updState d0 (readStream d0.mode data0
                (lookupCursor st d0.name)) st) d'.name) := by
        intro d' hd' hm' data' hdata'
        have hne : d'.name ≠ d0.name := by
          intro he
          exact hnodup.1 (he ▸ List.mem_map.mpr ⟨d', hd', rfl⟩)
        rw [lookupCursor_updState_ne hne]
        exact hcov d' (List.mem_cons_of_mem _ hd') hm' data' hdata'
      simp only [List.mem_append, List.mem_cons] at hmem
      rcases List.mem_cons.mp hd with hdd | hdd
      · subst hdd
        have hcov0 := hcov d (by simp) hm data0 hup
        have hemit : readStream d.mode data0 (lookupCursor st d.name) = [] := by
          rw [hm]
          exact read_closed hcov0
        rw [hemit] at hmem
        rcases hmem with hmem | hmem | hmem
        · simp at hmem
        · cases hmem
        · exact hnodup.1 (record_name_mem hmem)
      · rcases hmem with hmem | hmem | hmem
        · obtain ⟨r', _, heq⟩ := List.mem_map.mp hmem
          injection heq with hname _
          exact hnodup.1 (hname ▸ List.mem_map.mpr ⟨d, hdd, rfl⟩)
        · cases hmem
        · exact ih _ hnodup.2 hcond d hdd hm r hmem

/-- C2: idempotent resumption — if the upstream data is unchanged, running
the Sync Engine a second time with the SyncState produced by a successful
first run emits zero Record messages for every selected incremental
stream. -/
theorem idempotent_resumption (up : String → Except Unit (List RawRecord))
    (streams : List StreamDesc) (st : SyncState) (d : StreamDesc)
    (hnodup : (streams.map StreamDesc.name).Nodup)
    (hok : (runEngine up streams st).failed = false)
    (hd : d ∈ streams) (hinc : d.mode = Mode.incremental) :
    ∀ r : RawRecord,
      Msg.record d.name r ∉
        (runEngine up streams (runEngine up streams st).state).msgs := by
  intro r
  exact run_no_records_of_closed up streams (runEngine up streams st).state hnodup
    (fun d' hd' hm' data hdata =>
      run_ok_closes_incremental up streams st hnodup hok d' hd' hm' data hdata)
    d hd hinc r

theorem idempotent_resumption_witness :
    (([({ name := "a", mode := Mode.incremental } : StreamDesc)].map
        StreamDesc.name).Nodup) ∧
    ((runEngine (fun s' => if s' = "a"
        then Except.ok [(⟨5, 0⟩ : RawRecord)] else Except.error ())
      [{ name := "a", mode := Mode.incremental }] []).failed = false) ∧
    (({ name := "a", mode := Mode.incremental } : StreamDesc) ∈
      [({ name := "a", mode := Mode.incremental } : StreamDesc)]) ∧
    (({ name := "a", mode := Mode.incremental } : StreamDesc).mode =
      Mode.incremental) ∧
    (∀ r : RawRecord,
      Msg.record ({ name := "a", mode := Mode.incremental } : StreamDesc).name r ∉
        (runEngine (fun s' => if s' = "a"
            then Except.ok [(⟨5, 0⟩ : RawRecord)] else Except.error ())
          [{ name := "a", mode := Mode.incremental }]
          (runEngine (fun s' => if s' = "a"
              then Except.ok [(⟨5, 0⟩ : RawRecord)] else Except.error ())
            [{ name := "a", mode := Mode.incremental }] []).state).msgs) :=
  ⟨by decide, by decide, by decide, by decide,
    idempotent_resumption
      (fun s' => if s' = "a"
        then Except.ok [(⟨5, 0⟩ : RawRecord)] else Except.error ())
      [{ name := "a", mode := Mode.incremental }] []
      { name := "a", mode := Mode.incremental }
      (by decide) (by decide) (by decide) (by decide)⟩

theorem not_nameBefore_self {l : List String} (h : l.Nodup) (s : String) :
    ¬ nameBefore l s s := by
  rintro ⟨i, j, hij, hi, hj⟩
  obtain ⟨hi', hie⟩ := List.getElem?_eq_some.mp hi
  obtain ⟨hj', hje⟩ := List.getElem?_eq_some.mp hj
  have : i = j := List.Nodup.getElem_inj_iff h |>.mp (by rw [hie, hje])
  omega

theorem nameBefore_cons_of_ne {a : String} {l : List String} {s s' : String}
    (h : nameBefore (a :: l) s s') (hs : s ≠ a) : nameBefore l s s' := by
  obtain ⟨i, j, hij, hi, hj⟩ := h
  cases i with
  | zero =>
    rw [List.getElem?_cons_zero] at hi
    injection hi with hi
    exact absurd hi.symm hs
  | succ i' =>
    cases j with
    | zero => omega
    | succ j' =>
      rw [List.getElem?_cons_succ] at hi hj
      exact ⟨i', j', by omega, hi, hj⟩

theorem not_nameBefore_cons_head {a : String} {l : List String} {s : String}
    (ha : a ∉ l) : ¬ nameBefore (a :: l) s a := by
  rintro ⟨i, j, hij, hi, hj⟩
  cases j with
  | zero => omega
  | succ j' =>
    rw [List.getElem?_cons_succ] at hj
    exact ha (List.getElem?_mem hj)

theorem split_around {α : Type} (P : α → Prop) :
    ∀ (pre : List α) (xs : List α) {c m : α} {rest ys : List α},
      pre ++ c :: rest = xs ++ m :: ys →
      (∀ x ∈ pre, P x) → ¬ P m →
      (xs = pre ∧ m = c ∧ ys = rest) ∨
      ∃ xs', xs = pre ++ c :: xs' ∧ rest = xs' ++ m :: ys := by
  intro pre
  induction pre with
  | nil =>
    intro xs c m rest ys heq _ _
    cases xs with
    | nil =>
      rw [List.nil_append, List.nil_append] at heq
      injection heq with h1 h2
      exact Or.inl ⟨rfl, h1.symm, h2.symm⟩
    | cons x xs' =>
      rw [List.nil_append, List.cons_append] at heq
      injection heq with h1 h2
      exact Or.inr ⟨xs', by rw [List.nil_append, h1], h2⟩
  | cons a pre' ih =>
    intro xs c m rest ys heq hpre hm
    cases xs with
    | nil =>
      rw [List.cons_append, List.nil_append] at heq
      injection heq with h1 h2
      exact absurd (h1 ▸ hpre a (by simp)) hm
    | cons x xs'' =>
      rw [List.cons_append, List.cons_append] at heq
      injection heq with h1 h2
      rcases ih xs'' h2 (fun x hx => hpre x (List.mem_cons_of_mem _ hx)) hm with
        ⟨hxs, hmc, hys⟩ | ⟨xs', hxs, hrest⟩
      · exact Or.inl ⟨by rw [hxs, h1], hmc, hys⟩
      · exact Or.inr ⟨xs', by rw [hxs, h1, List.cons_append], hrest⟩

/-- C3: checkpoints sit exactly at stream-completion boundaries — wherever a
Checkpoint for stream `s` appears in the output, every Record of `s` is
strictly before it, every Record of a stream later than `s` in the configured
order is strictly after it, and no Checkpoint ever separates two Records of
the same stream (in particular of the same stream's same page-group). -/
theorem checkpoints_at_stream_boundaries
    (up : String → Except Unit (List RawRecord)) :
    ∀ (streams : List StreamDesc) (st : SyncState) (xs ys : List Msg)
      (s : String) (stc : SyncState),
      (streams.map StreamDesc.name).Nodup →
      (runEngine up streams st).msgs = xs ++ Msg.checkpoint s stc :: ys →
      (∀ r : RawRecord, Msg.record s r ∉ ys) ∧
      (∀ (s' : String) (r : RawRecord), Msg.record s' r ∈ xs →
        ¬ nameBefore (streams.map StreamDesc.name) s s') ∧
      (∀ (s' : String) (r r' : RawRecord),
        Msg.record s' r ∈ xs → Msg.record s' r' ∈ ys → False) := by
  intro streams
  induction streams with
  | nil =>
    intro st xs ys s stc _ hsplit
    rw [runEngine_nil] at hsplit
    cases xs <;> simp at hsplit
  | cons d rest ih =>
    intro st xs ys s stc hnodup hsplit
    simp only [List.map_cons, List.nodup_cons] at hnodup
    cases hup : up d.name with
    | error e =>
      cases e
      rw [runEngine_error rest st hup] at hsplit
      cases xs <;> simp at hsplit
    | ok data =>
      rw [runEngine_ok rest st hup] at hsplit
      rcases split_around (fun m => ∃ s0 r0, m = Msg.record s0 r0) _ xs hsplit
        (fun x hx => by
          obtain ⟨r0, _, hx0⟩ := List.mem_map.mp hx
          exact ⟨d.name, r0, hx0.symm⟩)
        (by rintro ⟨s0, r0, h0⟩; cases h0) with
        ⟨hxs, hmc, hys⟩ | ⟨xs', hxs, hrest⟩
      · injection hmc with hs1 hst1
        subst hs1
        refine ⟨?_, ?_, ?_⟩
        · intro r0 hr0
          rw [hys] at hr0
          exact hnodup.1 (record_name_mem hr0)
        · intro s' r0 hmem
          rw [hxs] at hmem
          obtain ⟨r1, _, heq1⟩ := List.mem_map.mp hmem
          injection heq1 with hname _
          rw [← hname]
          exact not_nameBefore_self
            (List.nodup_cons.mpr ⟨hnodup.1, hnodup.2⟩) d.name
        · intro s' r0 r0' hx hy
          rw [hxs] at hx
          rw [hys] at hy
          obtain ⟨r1, _, heq1⟩ := List.mem_map.mp hx
          injection heq1 with hname _
          rw [← hname] at hy
          exact hnodup.1 (record_name_mem hy)
      · obtain ⟨IH1, IH2, IH3⟩ := ih _ xs' ys s stc hnodup.2 hrest
        have hsmem : s ∈ rest.map StreamDesc.name := by
          have hcp : Msg.checkpoint s stc ∈
              (runEngine up rest (updState d (readStream d.mode data
                (lookupCursor st d.name)) st)).msgs := by
            rw [hrest]
            exact List.mem_append.mpr (Or.inr (List.mem_cons_self _ _))
          exact checkpoint_name_mem hcp
        have hne : s ≠ d.name := by
          intro he
          exact hnodup.1 (he ▸ hsmem)
        refine ⟨IH1, ?_, ?_⟩
        · intro s' r0 hmem
          rw [hxs] at hmem
          simp only [List.mem_append, List.mem_cons] at hmem
          rcases hmem with hmem | hmem | hmem
          · obtain ⟨r1, _, heq1⟩ := List.mem_map.mp hmem
            injection heq1 with hname _
            rw [← hname]
            exact not_nameBefore_cons_head hnodup.1
          · cases hmem
          · intro hb
            exact IH2 s' r0 hmem (nameBefore_cons_of_ne hb hne)
        · intro s' r0 r0' hx hy
          have hymem : Msg.record s' r0' ∈
              (runEngine up rest (updState d (readStream d.mode data
                (lookupCursor st d.name)) st)).msgs := by
            rw [hrest]
            exact List.mem_append.mpr (Or.inr (List.mem_cons_of_mem _ hy))
          have hs' : s' ∈ rest.map StreamDesc.name := record_name_mem hymem
          rw [hxs] at hx
          simp only [List.mem_append, List.mem_cons] at hx
          rcases hx with hx | hx | hx
          · obtain ⟨r1, _, heq1⟩ := List.mem_map.mp hx
            injection heq1 with hname _
            exact hnodup.1 (hname ▸ hs')
          · cases hx
          · exact IH3 s' r0 r0' hx hy

theorem checkpoints_at_stream_boundaries_witness :
    (([({ name := "a", mode := Mode.fullRefresh } : StreamDesc),
        { name := "b", mode := Mode.fullRefresh }].map StreamDesc.name).Nodup) ∧
    ((runEngine (fun s' => if s' = "a" then Except.ok [(⟨1, 0⟩ : RawRecord)]
          else if s' = "b" then Except.ok [(⟨2, 0⟩ : RawRecord)]
          else Except.error ())
        [{ name := "a", mode := Mode.fullRefresh },
          { name := "b", mode := Mode.fullRefresh }] []).msgs =
      [Msg.record "a" ⟨1, 0⟩] ++ Msg.checkpoint "a" [] ::
        [Msg.record "b" ⟨2, 0⟩, Msg.checkpoint "b" []]) ∧
    ((∀ r : RawRecord, Msg.record "a" r ∉
        [Msg.record "b" (⟨2, 0⟩ : RawRecord), Msg.checkpoint "b" []]) ∧
      (∀ (s' : String) (r : RawRecord),
        Msg.record s' r ∈ [Msg.record "a" (⟨1, 0⟩ : RawRecord)] →
        ¬ nameBefore ([({ name := "a", mode := Mode.fullRefresh } : StreamDesc),
            { name := "b", mode := Mode.fullRefresh }].map StreamDesc.name)
          "a" s') ∧
      (∀ (s' : String) (r r' : RawRecord),
        Msg.record s' r ∈ [Msg.record "a" (⟨1, 0⟩ : RawRecord)] →
        Msg.record s' r' ∈
          [Msg.record "b" (⟨2, 0⟩ : RawRecord), Msg.checkpoint "b" []] → False)) :=
  ⟨by decide, by decide,
    checkpoints_at_stream_boundaries
      (fun s' => if s' = "a" then Except.ok [(⟨1, 0⟩ : RawRecord)]
        else if s' = "b" then Except.ok [(⟨2, 0⟩ : RawRecord)]
        else Except.error ())
      [{ name := "a", mode := Mode.fullRefresh },
        { name := "b", mode := Mode.fullRefresh }] []
      [Msg.record "a" ⟨1, 0⟩] [Msg.record "b" ⟨2, 0⟩, Msg.checkpoint "b" []]
      "a" [] (by decide) (by decide)⟩

end ConnectorCore
